import Mathlib

/-!
Shallow embedding of the compiled-validator core of a JSON Schema validation
engine: the exact-arithmetic number type (src/perfect_precision_number.rs), the
structural-equality and hashing engine behind uniqueItems
(src/keywords/unique_items.rs), the numeric keyword validators
(src/keywords/minimum.rs, src/keywords/multiple_of.rs with the
perfect_precision feature enabled), and the format subsystem (src/format.rs,
src/format/jsonschema_formats.rs, src/keywords/format.rs).

Modelling conventions: arbitrary-precision integers (rug::Integer) are Int;
canonical rationals (rug::Rational) are Rat, which Mathlib keeps in reduced
form with positive denominator, exactly as rug does. Hashing is modelled by
the sequence of data words fed to the hasher: two values receive identical
hashes exactly when they feed identical sequences. Fallible operations return
Except or Option.
-/

namespace JsonSchemaCore

/-- The exact-number type of src/perfect_precision_number.rs: an
arbitrary-precision integer, an integer that originated from a literal with a
zero-only fractional part, or a canonically reduced rational. -/
inductive PerfectPrecisionNumber where
  | Integer (z : ℤ)
  | IntegerFromFloat (z : ℤ)
  | Rational (q : ℚ)
deriving DecidableEq, Repr

/-- Parse error of PerfectPrecisionNumber parsing (PerfectPrecisionNumberError). -/
inductive PerfectPrecisionNumberError where
  | Invalid (reason : String)
deriving DecidableEq, Repr

/-- Value of an ASCII digit character, as Rust to_digit(10) computes it. -/
def charVal (c : Char) : ℤ := (c.toNat : ℤ) - 48

/-- Fold a list of digit characters onto an accumulator in base 10; this is the
running numerator accumulation of the manual parsing loop. -/
def pushDigits (acc : ℤ) (cs : List Char) : ℤ :=
  cs.foldl (fun n c => n * 10 + charVal c) acc

/-- The ASCII whitespace characters the external arbitrary-precision integer
parser skips (space, horizontal tab, line feed, form feed, carriage
return). -/
def rugSpace (c : Char) : Bool :=
  c == ' ' || c == '\t' || c == '\n' || c == '\x0c' || c == '\r'

/-- Character scan of the external arbitrary-precision integer parser
(value.parse over rug Integer, radix 10), following its documented grammar:
ASCII whitespace is ignored everywhere in the string; one plus or minus sign
is allowed, only before the first digit; underscores are ignored anywhere
except before the first digit; every other character must be a decimal digit;
at least one digit is required. State: characters left, whether a sign was
seen, whether a digit was seen, whether the sign was minus, and the magnitude
accumulator. -/
def rugParseLoop : List Char → Bool → Bool → Bool → ℤ → Option (Bool × ℤ)
  | [], _, hasDigits, isNeg, acc =>
      if hasDigits then some (isNeg, acc) else none
  | c :: rest, hasSign, hasDigits, isNeg, acc =>
      if c = '+' then
        if hasSign || hasDigits then none
        else rugParseLoop rest true hasDigits isNeg acc
      else if c = '-' then
        if hasSign || hasDigits then none
        else rugParseLoop rest true hasDigits true acc
      else if c = '_' then
        if hasDigits then rugParseLoop rest hasSign hasDigits isNeg acc
        else none
      else if rugSpace c then rugParseLoop rest hasSign hasDigits isNeg acc
      else if c.isDigit then
        rugParseLoop rest hasSign true isNeg (acc * 10 + charVal c)
      else none

/-- Model of the external arbitrary-precision integer parser invoked first by
FromStr (value.parse over rug Integer): the documented decimal grammar of the
scan above, yielding the signed value. -/
def rugIntegerParse (s : String) : Option ℤ :=
  (rugParseLoop s.toList false false false 0).map
    (fun r => if r.1 then -r.2 else r.2)

/-- The characters handed to the manual parsing loop: the text with an
optional leading minus sign consumed (the peek/next of the source). -/
def afterSign (s : String) : List Char :=
  match s.toList with
  | [] => []
  | c :: rest => if c = '-' then rest else c :: rest

/-- The initial denominator accumulator of the manual loop: -1 when a leading
minus sign was consumed, 1 otherwise. -/
def signOf (s : String) : ℤ :=
  match s.toList with
  | [] => 1
  | c :: _ => if c = '-' then -1 else 1

/-- The manual character loop of FromStr for PerfectPrecisionNumber
(perfect_precision_number.rs lines 71-93). State: characters left, whether a
decimal point was found, whether only zero digits appeared after it, the
numerator accumulator, and the denominator accumulator (which also carries the
sign, having been initialised to -1 for a consumed leading minus). Returns the
final state or the parse error. -/
def fromStrLoop :
    List Char → Bool → Bool → ℤ → ℤ →
      Except PerfectPrecisionNumberError (Bool × Bool × ℤ × ℤ)
  | [], foundPoint, onlyZeros, numerator, denominator =>
      .ok (foundPoint, onlyZeros, numerator, denominator)
  | c :: rest, foundPoint, onlyZeros, numerator, denominator =>
      if c = '.' then
        if foundPoint then
          .error (.Invalid "Multiple decimal points in the input string")
        else
          fromStrLoop rest true onlyZeros numerator denominator
      else if c.isDigit then
        let numerator' := numerator * 10 + charVal c
        if foundPoint then
          fromStrLoop rest foundPoint (onlyZeros && charVal c == 0) numerator'
            (denominator * 10)
        else
          fromStrLoop rest foundPoint onlyZeros numerator' denominator
      else
        .error (.Invalid "Invalid digit (accepted digits in [0-9])")

/-- FromStr for PerfectPrecisionNumber (perfect_precision_number.rs lines
54-111). First the text is offered to the big-integer parser; on failure the
manual loop runs on the characters after an optional leading minus sign, with
the denominator accumulator started at -1 when the sign was consumed. The
final classification mirrors the source: the denominator test
to_u8 == Some(1) holds exactly when the accumulator equals 1 (it is None for
negative values and values above 255, and the accumulator is always of the
form plus or minus a power of ten); integer division by the denominator is the
truncating division of the arbitrary-precision library. -/
def fromStr (value : String) : Except PerfectPrecisionNumberError PerfectPrecisionNumber :=
  match rugIntegerParse value with
  | some integer => .ok (.Integer integer)
  | none =>
    match fromStrLoop (afterSign value) false true 0 (signOf value) with
    | .error e => .error e
    | .ok (foundPoint, onlyZeros, numerator, denominator) =>
      if denominator = 1 then
        if foundPoint then .ok (.IntegerFromFloat numerator)
        else .ok (.Integer numerator)
      else if onlyZeros then .ok (.IntegerFromFloat (numerator.tdiv denominator))
      else .ok (.Rational (Rat.divInt numerator denominator))

/-- Whether parsing succeeded. -/
def parseOk : Except PerfectPrecisionNumberError PerfectPrecisionNumber → Bool
  | .ok _ => true
  | .error _ => false

/-- Specification-side predicate: every character is a zero digit (the
only-zeros-after-the-decimal-point condition). -/
def zerosOnly (cs : List Char) : Bool := cs.all (fun c => charVal c == 0)

/-- Specification-side shape test: after the optional leading minus sign,
every character is a digit or a decimal point. A text failing this test
contains a non-digit character outside the optional leading sign and the
decimal points. -/
def shapeOk (s : String) : Bool := (afterSign s).all (fun c => c.isDigit || c == '.')

/-- From of a borrowed serde Number for PerfectPrecisionNumber
(perfect_precision_number.rs lines 165-173): the number literal (kept verbatim
by serde_json under arbitrary_precision) is parsed; the source asserts success
with expect, which is unreachable for exponent-free JSON literals. The
unreachable error case is mapped to Integer 0 here. -/
def ppnFromNumber (s : String) : PerfectPrecisionNumber :=
  match fromStr s with
  | .ok ppn => ppn
  | .error _ => .Integer 0

/-- PartialEq for PerfectPrecisionNumber (lines 175-191): the two integer-like
variants compare by the underlying integer in all four combinations, rationals
compare by value, and integer-like never equals Rational. -/
def ppnEq : PerfectPrecisionNumber → PerfectPrecisionNumber → Bool
  | .Integer a, .Integer b
  | .Integer a, .IntegerFromFloat b
  | .IntegerFromFloat a, .Integer b
  | .IntegerFromFloat a, .IntegerFromFloat b => a == b
  | .Rational p, .Rational q => p == q
  | _, _ => false

/-- Three-way comparison on integers, as the arbitrary-precision library
defines cmp. -/
def cmpInt (a b : ℤ) : Ordering :=
  if a < b then .lt else if a = b then .eq else .gt

/-- Three-way comparison on rationals, as the arbitrary-precision library
defines cmp. -/
def cmpRat (a b : ℚ) : Ordering :=
  if a < b then .lt else if a = b then .eq else .gt

/-- PartialOrd and Ord for PerfectPrecisionNumber (lines 195-228): integer-like
sides compare as integers; a comparison involving a Rational promotes the
integer side to a rational with denominator 1 and compares rationals. -/
def ppnCmp : PerfectPrecisionNumber → PerfectPrecisionNumber → Ordering
  | .Integer a, .Integer b
  | .IntegerFromFloat a, .Integer b
  | .Integer a, .IntegerFromFloat b
  | .IntegerFromFloat a, .IntegerFromFloat b => cmpInt a b
  | .Integer a, .Rational q
  | .IntegerFromFloat a, .Rational q => cmpRat (a : ℚ) q
  | .Rational p, .Rational q => cmpRat p q
  | .Rational p, .Integer b
  | .Rational p, .IntegerFromFloat b => cmpRat p (b : ℚ)

/-- The Rust operator a >= b as PartialOrd derives it from partial_cmp. -/
def ppnGe (a b : PerfectPrecisionNumber) : Bool :=
  ppnCmp a b != Ordering.lt

/-- Rational value of a PerfectPrecisionNumber (specification-side semantics
used to state exactness theorems). -/
def ppnToRat : PerfectPrecisionNumber → ℚ
  | .Integer z | .IntegerFromFloat z => (z : ℚ)
  | .Rational q => q

/-- Hash for PerfectPrecisionNumber (lines 230-239), modelled as the sequence
of words fed to the hasher: Integer feeds the tuple (0, integer),
IntegerFromFloat feeds (1, integer), Rational feeds its numerator and
denominator. -/
def ppnHashFeed : PerfectPrecisionNumber → List ℤ
  | .Integer z => [0, z]
  | .IntegerFromFloat z => [1, z]
  | .Rational q => [q.num, (q.den : ℤ)]

/-- Divisibility on arbitrary-precision integers (is_divisible of the
arbitrary-precision library, GMP semantics: with divisor zero only zero is
divisible). -/
def is_divisible (a b : ℤ) : Bool :=
  if b = 0 then a == 0 else a % b == 0

/-- The exact rational division performed by the arbitrary-precision library
in the rational/rational arm of is_multiple_of: the quotient of two canonical
rationals, renormalised. Written through Rat.divInt on the cross products
(which is the value of the quotient); ratDivExact_eq_div below proves it equal
to rational division whenever the divisor is nonzero. -/
def ratDivExact (p q : ℚ) : ℚ :=
  Rat.divInt (p.num * (q.den : ℤ)) ((p.den : ℤ) * q.num)

/-- is_multiple_of for PerfectPrecisionNumber (lines 242-281): four cases over
the integer-like / Rational split, exactly as the source. -/
def is_multiple_of : PerfectPrecisionNumber → PerfectPrecisionNumber → Bool
  | .Integer a, .Integer b
  | .Integer a, .IntegerFromFloat b
  | .IntegerFromFloat a, .Integer b
  | .IntegerFromFloat a, .IntegerFromFloat b => is_divisible a b
  | .Integer a, .Rational q
  | .IntegerFromFloat a, .Rational q => is_divisible a q.num
  | .Rational _, .Integer _
  | .Rational _, .IntegerFromFloat _ => false
  | .Rational p, .Rational q => (ratDivExact p q).den == 1

/-- Well-formedness invariant guaranteed by construction (FromStr and the
float conversions): the Rational variant always carries a reduced rational
whose denominator is not 1. -/
def ppnWf : PerfectPrecisionNumber → Prop
  | .Rational q => q.den ≠ 1
  | _ => True

mutual
/-- serde_json Value under the arbitrary_precision and preserve_order
configuration the exact engine requires: numbers keep their literal spelling
as text, objects keep insertion order. Declared mutually with its own list
types so every function on it is structurally recursive. -/
inductive Json where
  | null
  | bool (b : Bool)
  | num (lit : String)
  | str (s : String)
  | arr (items : JsonList)
  | obj (entries : JsonObj)

/-- An ordered sequence of JSON values (serde_json Vec of Value). -/
inductive JsonList where
  | nil
  | cons (hd : Json) (tl : JsonList)

/-- An insertion-ordered string-keyed mapping (serde_json Map). -/
inductive JsonObj where
  | nil
  | cons (key : String) (val : Json) (tl : JsonObj)
end

/-- Number of entries of an object. -/
def objLen : JsonObj → Nat
  | .nil => 0
  | .cons _ _ tl => objLen tl + 1

/-- Map lookup by key (first matching entry; parsed JSON maps have distinct
keys). -/
def objGet : JsonObj → String → Option Json
  | .nil, _ => none
  | .cons k v tl, key => if k == key then some v else objGet tl key

mutual
/-- serde_json PartialEq for Value: structural, with numbers compared by
literal text (arbitrary_precision keeps the spelling), arrays element-wise in
order, and objects as mappings independent of entry order (IndexMap equality:
same length and every key of the left maps to an equal value in the right). -/
def serdeEq : Json → Json → Bool
  | .null, .null => true
  | .bool a, .bool b => a == b
  | .num a, .num b => a == b
  | .str a, .str b => a == b
  | .arr a, .arr b => serdeEqList a b
  | .obj a, .obj b => objLen a == objLen b && serdeObjEntriesMatch a b
  | _, _ => false

/-- Element-wise, order-sensitive equality of JSON arrays. -/
def serdeEqList : JsonList → JsonList → Bool
  | .nil, .nil => true
  | .cons a as, .cons b bs => serdeEq a b && serdeEqList as bs
  | _, _ => false

/-- Every entry of the first object is present with an equal value in the
second. -/
def serdeObjEntriesMatch : JsonObj → JsonObj → Bool
  | .nil, _ => true
  | .cons k v tl, other =>
      (match objGet other k with
       | some w => serdeEq v w
       | none => false) && serdeObjEntriesMatch tl other
end

/-- PartialEq for HashedValue (unique_items.rs lines 20-52): same-kind values
compare via serde equality, except that two top-level numbers additionally
compare equal when their PerfectPrecisionNumber parses are equal (the
perfect_precision branch: literal equality or exact-value equality). Note the
array and object arms delegate to the plain serde equality of the wrapped
values, so nested numbers compare by literal. -/
def hvEq : Json → Json → Bool
  | .arr a, .arr b => serdeEqList a b
  | .bool a, .bool b => a == b
  | .null, .null => true
  | .num a, .num b => a == b || ppnEq (ppnFromNumber a) (ppnFromNumber b)
  | .obj a, .obj b => objLen a == objLen b && serdeObjEntriesMatch a b
  | .str a, .str b => a == b
  | _, _ => false

/-- The words a hashed string feeds to the hasher: its characters followed by
a terminator, modelling the standard library string hashing. -/
def strFeed (s : String) : List ℤ :=
  s.toList.map (fun c => (c.toNat : ℤ)) ++ [255]

/-- Lexicographic comparison of hash-feed encodings, used to canonicalise the
order-insensitive exclusive-or accumulation of object entry hashes. -/
def feedLe : List ℤ → List ℤ → Bool
  | [], _ => true
  | _ :: _, [] => false
  | a :: as, b :: bs => if a < b then true else if b < a then false else feedLe as bs

/-- Insertion into a list sorted by feedLe. -/
def insertFeed (x : List ℤ) : List (List ℤ) → List (List ℤ)
  | [] => [x]
  | y :: ys => if feedLe x y then x :: y :: ys else y :: insertFeed x ys

/-- Sort a list of entry encodings by feedLe. -/
def sortFeeds : List (List ℤ) → List (List ℤ)
  | [] => []
  | x :: xs => insertFeed x (sortFeeds xs)

/-- Model of the object arm of the hash (unique_items.rs lines 82-93): each
entry (key, value) is hashed on its own hasher and the finished words are
combined with exclusive-or, then the combined word is written. Exclusive-or is
commutative and the keys of a parsed object are distinct, so the combined word
is determined by the set of entry feeds; it is modelled canonically as the
sorted entry feeds flattened with length prefixes. -/
def objXorFeed (entries : List (List ℤ)) : List ℤ :=
  ((entries.length : ℤ)) :: (sortFeeds entries).flatMap (fun e => ((e.length : ℤ)) :: e)

mutual
/-- Hash for HashedValue (unique_items.rs lines 55-96), modelled as the
sequence of words fed to the hasher: null feeds the fixed sentinel, booleans
feed themselves, numbers feed their PerfectPrecisionNumber hash (the
perfect_precision branch), strings feed their characters, arrays feed each
element in order with no separators (exactly as the source folds element
hashes into one hasher), and objects feed the exclusive-or combination of
their entry hashes. -/
def hvHash : Json → List ℤ
  | .null => [3221225473]
  | .bool b => [if b then 1 else 0]
  | .num s => ppnHashFeed (ppnFromNumber s)
  | .str s => strFeed s
  | .arr xs => hvHashList xs
  | .obj kvs => objXorFeed (hvHashEntries kvs)

/-- Concatenated element hash feeds of an array. -/
def hvHashList : JsonList → List ℤ
  | .nil => []
  | .cons x xs => hvHash x ++ hvHashList xs

/-- Per-entry hash feeds of an object: each entry hashes its key then its
value on a fresh hasher. -/
def hvHashEntries : JsonObj → List (List ℤ)
  | .nil => []
  | .cons k v tl => (strFeed k ++ hvHash v) :: hvHashEntries tl
end

/-- One HashSet insertion of the uniqueItems loop: the set reports an existing
element exactly when some already-inserted element has the same hash and is
equal (the idealised behaviour of a hash set whose lookups compare hashes
first and equality within a hash match). -/
def hsContains (seen : List Json) (x : Json) : Bool :=
  seen.any (fun y => hvHash y == hvHash x && hvEq y x)

/-- The insertion fold of is_unique over the array elements. -/
def is_uniqueAux : JsonList → List Json → Bool
  | .nil, _ => true
  | .cons x xs, seen =>
      if hsContains seen x then false else is_uniqueAux xs (x :: seen)

/-- is_unique (unique_items.rs lines 98-102): insert every element wrapper
into a hash set, failing on the first insertion that finds an existing equal
element. -/
def is_unique (items : JsonList) : Bool :=
  is_uniqueAux items []

/-- Violation records produced by the diagnostic entry points. The source
records (ValidationError constructors) also carry a floating-point rendering
of the limit for display; that diagnostic payload is elided here, only the
offending instance and the keyword are kept. -/
inductive ValidationError where
  | unique_items (instance_ : Json)
  | minimum (instance_ : Json)
  | multiple_of (instance_ : Json)
  | format (instance_ : Json) (formatName : String)

/-- UniqueItemsValidator is_valid (unique_items.rs lines 127-134): arrays are
checked with is_unique; every other kind returns false. -/
def uniqueItems_is_valid : Json → Bool
  | .arr items => is_unique items
  | _ => false

/-- UniqueItemsValidator validate (unique_items.rs lines 136-143): arrays go
through validate_array, every other kind yields no error. The validate_array
helper is modelled from the spec (validator.rs is not among the provided
sources): the diagnostic form yields nothing when the typed check passes and
one violation built by build_validation_error when it fails. -/
def uniqueItems_validate (instance_ : Json) : List ValidationError :=
  match instance_ with
  | .arr items =>
      if is_unique items then [] else [.unique_items instance_]
  | _ => []

/-- MinimumValidator is_valid under perfect_precision (minimum.rs lines
107-119): numbers are converted to PerfectPrecisionNumber and compared with
instance >= limit; every other kind returns true. -/
def minimum_is_valid (limit : PerfectPrecisionNumber) : Json → Bool
  | .num s => ppnGe (ppnFromNumber s) limit
  | _ => true

/-- MinimumValidator validate under perfect_precision (minimum.rs lines
134-150): numbers go through validate_perfect_precision_number (modelled from
the spec: empty when the typed check passes, one violation otherwise); every
other kind yields no error. -/
def minimum_validate (limit : PerfectPrecisionNumber) (instance_ : Json) :
    List ValidationError :=
  match instance_ with
  | .num s =>
      if ppnGe (ppnFromNumber s) limit then [] else [.minimum instance_]
  | _ => []

/-- MultipleOfValidator is_valid under perfect_precision (multiple_of.rs lines
81-88): numbers are converted to PerfectPrecisionNumber and checked with
is_multiple_of against the compiled divisor; every other kind returns true. -/
def multipleOf_is_valid (multipleOf : PerfectPrecisionNumber) : Json → Bool
  | .num s => is_multiple_of (ppnFromNumber s) multipleOf
  | _ => true

/-- MultipleOfValidator validate under perfect_precision (multiple_of.rs lines
90-97), with the typed diagnostic helper modelled from the spec as for
minimum. -/
def multipleOf_validate (multipleOf : PerfectPrecisionNumber) (instance_ : Json) :
    List ValidationError :=
  match instance_ with
  | .num s =>
      if is_multiple_of (ppnFromNumber s) multipleOf then []
      else [.multiple_of instance_]
  | _ => []

/-- Modelled from the spec: the schema draft version enumeration supplied by
the compilation context (schemas.rs is not among the provided sources), an
ordered enumeration containing at least Draft6 and Draft7. -/
inductive Draft where
  | draft6
  | draft7
deriving DecidableEq, Repr

/-- Numeric rank of a draft, fixing the order of the enumeration. -/
def Draft.rank : Draft → Nat
  | .draft6 => 6
  | .draft7 => 7

/-- The ordering comparison used by the draft gates (draft_version at least a
given draft). -/
def Draft.ge (a b : Draft) : Bool := b.rank ≤ a.rank

/-- A built-in format handler as the impl_string_formatter macro produces it
(jsonschema_formats.rs lines 31-67): its keyword name and its
supported_for_draft gate. Every built-in overrides only the string check; the
string check itself delegates to external date/regex/url/address/idna
libraries and is outside the embedded scope, so it is not part of the record
and validation over it is stated generically. -/
structure BuiltinFormat where
  formatName : String
  supported_for_draft : Draft → Bool

/-- date format: draft-independent (the trait default gate, format.rs lines
19-25). -/
def DateValidator : BuiltinFormat := ⟨"date", fun _ => true⟩

/-- date-time format: draft-independent. -/
def DateTimeValidator : BuiltinFormat := ⟨"date-time", fun _ => true⟩

/-- email format: draft-independent. -/
def EmailValidator : BuiltinFormat := ⟨"email", fun _ => true⟩

/-- hostname format: draft-independent. -/
def HostnameValidator : BuiltinFormat := ⟨"hostname", fun _ => true⟩

/-- idn-email format: draft-independent. -/
def IDNEmailValidator : BuiltinFormat := ⟨"idn-email", fun _ => true⟩

/-- idn-hostname format: requires draft at least 7 (jsonschema_formats.rs
lines 98-103). -/
def IDNHostnameValidator : BuiltinFormat :=
  ⟨"idn-hostname", fun d => d.ge .draft7⟩

/-- ipv4 format: draft-independent. -/
def IpV4Validator : BuiltinFormat := ⟨"ipv4", fun _ => true⟩

/-- ipv6 format: draft-independent. -/
def IpV6Validator : BuiltinFormat := ⟨"ipv6", fun _ => true⟩

/-- iri format: requires draft at least 7 (lines 118-123). -/
def IRIValidator : BuiltinFormat := ⟨"iri", fun d => d.ge .draft7⟩

/-- iri-reference format: requires draft at least 7 (lines 124-129). -/
def IRIReferenceValidator : BuiltinFormat :=
  ⟨"iri-reference", fun d => d.ge .draft7⟩

/-- json-pointer format: requires draft at least 6 (lines 130-135). -/
def JSONPointerValidator : BuiltinFormat :=
  ⟨"json-pointer", fun d => d.ge .draft6⟩

/-- regex format: draft-independent. -/
def RegexValidator : BuiltinFormat := ⟨"regex", fun _ => true⟩

/-- relative-json-pointer format: requires draft at least 7 (lines 139-144). -/
def RelativeJSONPointerValidator : BuiltinFormat :=
  ⟨"relative-json-pointer", fun d => d.ge .draft7⟩

/-- time format: draft-independent. -/
def TimeValidator : BuiltinFormat := ⟨"time", fun _ => true⟩

/-- uri format: draft-independent. -/
def URIValidator : BuiltinFormat := ⟨"uri", fun _ => true⟩

/-- uri-reference format: requires draft at least 6 (lines 151-156). -/
def URIReferenceValidator : BuiltinFormat :=
  ⟨"uri-reference", fun d => d.ge .draft6⟩

/-- uri-template format: requires draft at least 6 (lines 157-162). -/
def URITemplateValidator : BuiltinFormat :=
  ⟨"uri-template", fun d => d.ge .draft6⟩

/-- The built-in format table: the match arms of the format keyword compiler
(keywords/format.rs lines 18-37) rendered as a name-keyed lookup list. -/
def formatHandlers : List BuiltinFormat :=
  [DateTimeValidator, DateValidator, EmailValidator, HostnameValidator,
   IDNEmailValidator, IDNHostnameValidator, IpV4Validator, IpV6Validator,
   IRIReferenceValidator, IRIValidator, JSONPointerValidator, RegexValidator,
   RelativeJSONPointerValidator, TimeValidator, URIReferenceValidator,
   URITemplateValidator, URIValidator]

/-- Compilation failure kinds surfaced by keyword compilers. -/
inductive CompilationError where
  | SchemaError
deriving DecidableEq, Repr

/-- FormatValidatorBuilder compile (format.rs lines 70-81): construct the
validator when its gate accepts the draft, otherwise produce no validator. -/
def builder_compile (f : BuiltinFormat) (draft_version : Draft) :
    Option (Except CompilationError BuiltinFormat) :=
  if f.supported_for_draft draft_version then some (.ok f) else none

/-- The format keyword compiler (keywords/format.rs lines 10-41): a string
schema value is looked up among the built-in handlers and compiled through its
builder (an unknown name compiles to no validator); any non-string schema
value is a SchemaError. -/
def format_compile (schema : Json) (draft_version : Draft) :
    Option (Except CompilationError BuiltinFormat) :=
  match schema with
  | .str formatName =>
      match formatHandlers.find? (fun f => f.formatName == formatName) with
      | some f => builder_compile f draft_version
      | none => none
  | _ => some (.error .SchemaError)

/-- Validate is_valid for a compiled format validator (format.rs lines
85-128 together with the untyped dispatch entry point, the latter modelled
from the spec since validator.rs is not among the provided sources): the
instance kind selects the matching typed check; a built-in string format
overrides only the string check, every other kind keeps the default that
returns true. Stated generically over the external string check. -/
def format_is_valid (check_string : String → Bool) : Json → Bool
  | .str s => check_string s
  | _ => true

/-- Whether a JSON value is a string (the shape test of the format keyword
compiler). -/
def Json.isString : Json → Bool
  | .str _ => true
  | _ => false

/-! ## Helper lemmas -/

/-- The derived not-less test of the integer three-way comparison is the
decidable greater-or-equal test. -/
theorem cmpInt_ne_lt (a b : ℤ) : (cmpInt a b != Ordering.lt) = decide (b ≤ a) := by
  unfold cmpInt
  split_ifs with h1 h2
  · show (false : Bool) = decide (b ≤ a)
    exact (decide_eq_false (by omega)).symm
  · show (true : Bool) = decide (b ≤ a)
    exact (decide_eq_true (by omega)).symm
  · show (true : Bool) = decide (b ≤ a)
    exact (decide_eq_true (by omega)).symm

/-- The derived not-less test of the rational three-way comparison is the
decidable greater-or-equal test. -/
theorem cmpRat_ne_lt (p q : ℚ) : (cmpRat p q != Ordering.lt) = decide (q ≤ p) := by
  unfold cmpRat
  split_ifs with h1 h2
  · show (false : Bool) = decide (q ≤ p)
    exact (decide_eq_false (not_le.mpr h1)).symm
  · show (true : Bool) = decide (q ≤ p)
    exact (decide_eq_true (le_of_eq h2.symm)).symm
  · show (true : Bool) = decide (q ≤ p)
    exact (decide_eq_true (le_of_not_lt h1)).symm

/-- Correctness of the derived greater-or-equal operator: it agrees with the
exact rational comparison of the represented values, in every one of the nine
variant combinations. -/
theorem ppnGe_eq_decide (a b : PerfectPrecisionNumber) :
    ppnGe a b = decide (ppnToRat b ≤ ppnToRat a) := by
  cases a <;> cases b <;>
    simp only [ppnGe, ppnCmp, ppnToRat, cmpInt_ne_lt, cmpRat_ne_lt] <;>
    simp only [decide_eq_decide, Int.cast_le]

/-- The integer divisibility test agrees with mathematical divisibility,
including the divisor-zero convention. -/
theorem is_divisible_iff (a b : ℤ) : is_divisible a b = true ↔ b ∣ a := by
  unfold is_divisible
  split_ifs with h
  · subst h
    simp only [beq_iff_eq, zero_dvd_iff]
  · simp only [beq_iff_eq, Int.dvd_iff_emod_eq_zero]

/-- A canonical rational multiplied by its denominator gives its numerator. -/
theorem den_mul_self_eq_num (q : ℚ) : (q.den : ℚ) * q = (q.num : ℚ) := by
  have hd : ((q.den : ℚ)) ≠ 0 := by exact_mod_cast q.den_nz
  calc (q.den : ℚ) * q = (q.den : ℚ) * ((q.num : ℚ) / (q.den : ℚ)) := by
        rw [Rat.num_div_den]
    _ = (q.num : ℚ) := by field_simp

/-- Commuted form of den_mul_self_eq_num. -/
theorem self_mul_den_eq_num (q : ℚ) : q * (q.den : ℚ) = (q.num : ℚ) := by
  rw [mul_comm]; exact den_mul_self_eq_num q

/-- Integer divisibility expressed as the existence of an integer multiplier
over the rationals. -/
theorem int_dvd_iff_int_multiple (a b : ℤ) :
    b ∣ a ↔ ∃ k : ℤ, (a : ℚ) = (k : ℚ) * (b : ℚ) := by
  constructor
  · rintro ⟨c, hc⟩
    exact ⟨c, by rw [hc]; push_cast; ring⟩
  · rintro ⟨k, hk⟩
    have h1 : a = k * b := by exact_mod_cast hk
    exact ⟨k, by rw [h1]; ring⟩

/-- An integer is an integer multiple of a canonical rational exactly when the
numerator of the rational divides it; this is the correctness of the
integer-versus-rational arm, resting on the rational being reduced. -/
theorem num_dvd_iff_rat_multiple (a : ℤ) (q : ℚ) :
    q.num ∣ a ↔ ∃ k : ℤ, (a : ℚ) = (k : ℚ) * q := by
  constructor
  · rintro ⟨c, hc⟩
    refine ⟨c * q.den, ?_⟩
    have step : ((c * q.den : ℤ) : ℚ) * q = (c : ℚ) * ((q.den : ℚ) * q) := by
      push_cast; ring
    rw [step, den_mul_self_eq_num, hc]
    push_cast; ring
  · rintro ⟨k, hk⟩
    have hmul : (a : ℚ) * (q.den : ℚ) = (k : ℚ) * (q.num : ℚ) := by
      rw [hk, mul_assoc, self_mul_den_eq_num]
    have hz : a * (q.den : ℤ) = k * q.num := by exact_mod_cast hmul
    have hdvd : q.num ∣ a * (q.den : ℤ) := ⟨k, by rw [hz]; ring⟩
    have hnat : q.num.natAbs ∣ a.natAbs * q.den := by
      have h2 := Int.natAbs_dvd_natAbs.mpr hdvd
      rwa [Int.natAbs_mul, Int.natAbs_ofNat] at h2
    have h3 : q.num.natAbs ∣ a.natAbs := (q.reduced).dvd_of_dvd_mul_right hnat
    exact Int.natAbs_dvd_natAbs.mp h3

/-- A rational with denominator other than 1 is never an integer multiple of
an integer; this is the correctness of the rational-versus-integer arm. -/
theorem rat_not_int_multiple (p : ℚ) (hp : p.den ≠ 1) (b : ℤ) :
    ¬ ∃ k : ℤ, p = (k : ℚ) * (b : ℚ) := by
  rintro ⟨k, hk⟩
  apply hp
  have h1 : p = ((k * b : ℤ) : ℚ) := by rw [hk]; push_cast; ring
  rw [h1, Rat.den_intCast]

/-- The quotient of two canonical rationals reduces to denominator 1 exactly
when the dividend is an integer multiple of the divisor; this is the
correctness of the rational-versus-rational arm. -/
theorem ratDivExact_den_one_iff (p q : ℚ) (hq : q.den ≠ 1) :
    (ratDivExact p q).den = 1 ↔ ∃ k : ℤ, p = (k : ℚ) * q := by
  have hqnum : q.num ≠ 0 := by
    intro h
    apply hq
    rw [Rat.num_eq_zero.mp h]
    rfl
  have hB : ((p.den : ℤ) * q.num) ≠ 0 :=
    mul_ne_zero (Int.natCast_ne_zero.mpr p.den_nz) hqnum
  have hpd : ((p.den : ℚ)) ≠ 0 := by exact_mod_cast p.den_nz
  have hqd : ((q.den : ℚ)) ≠ 0 := by exact_mod_cast q.den_nz
  unfold ratDivExact
  rw [Rat.divInt_eq_div, Rat.den_div_intCast_eq_one_iff _ _ hB]
  constructor
  · rintro ⟨k, hk⟩
    refine ⟨k, ?_⟩
    have hcast : (p.num : ℚ) * q.den = (p.den : ℚ) * q.num * k := by exact_mod_cast hk
    have e1 : p * (p.den : ℚ) = (p.num : ℚ) := self_mul_den_eq_num p
    have e2 : q * (q.den : ℚ) = (q.num : ℚ) := self_mul_den_eq_num q
    have goal2 : p * ((p.den : ℚ) * (q.den : ℚ))
        = (k : ℚ) * q * ((p.den : ℚ) * (q.den : ℚ)) := by
      calc p * ((p.den : ℚ) * (q.den : ℚ)) = (p.num : ℚ) * q.den := by
            rw [← mul_assoc, e1]
        _ = (p.den : ℚ) * q.num * k := hcast
        _ = (k : ℚ) * q * ((p.den : ℚ) * (q.den : ℚ)) := by
            rw [show (k : ℚ) * q * ((p.den : ℚ) * (q.den : ℚ))
                  = (k : ℚ) * (q * (q.den : ℚ)) * (p.den : ℚ) by ring, e2]
            ring
    exact mul_right_cancel₀ (mul_ne_zero hpd hqd) goal2
  · rintro ⟨k, hk⟩
    refine ⟨k, ?_⟩
    have e1 : p * (p.den : ℚ) = (p.num : ℚ) := self_mul_den_eq_num p
    have e2 : q * (q.den : ℚ) = (q.num : ℚ) := self_mul_den_eq_num q
    have hcast : (p.num : ℚ) * q.den = (p.den : ℚ) * q.num * k := by
      calc (p.num : ℚ) * q.den = p * (p.den : ℚ) * q.den := by rw [e1]
        _ = (k : ℚ) * (q * (q.den : ℚ)) * p.den := by rw [hk]; ring
        _ = (p.den : ℚ) * q.num * k := by rw [e2]; ring
    exact_mod_cast hcast

/-- A digit character has value between 0 and 9. -/
theorem charVal_bounds {c : Char} (h : c.isDigit = true) : 0 ≤ charVal c ∧ charVal c ≤ 9 := by
  simp only [Char.isDigit, ge_iff_le, Bool.and_eq_true, decide_eq_true_eq] at h
  obtain ⟨h1, h2⟩ := h
  have h1' : (48 : UInt32).toNat ≤ c.val.toNat := h1
  have h2' : c.val.toNat ≤ (57 : UInt32).toNat := h2
  have e1 : (48 : UInt32).toNat = 48 := rfl
  have e2 : (57 : UInt32).toNat = 57 := rfl
  have e3 : c.toNat = c.val.toNat := rfl
  unfold charVal
  omega

/-- A digit character is not the decimal point. -/
theorem digit_ne_point {c : Char} (h : c.isDigit = true) : c ≠ '.' := by
  intro heq; subst heq; exact absurd h (by decide)

/-- A digit character is not the minus sign. -/
theorem digit_ne_minus {c : Char} (h : c.isDigit = true) : c ≠ '-' := by
  intro heq; subst heq; exact absurd h (by decide)

/-- Unfolding of the digit accumulation step. -/
theorem pushDigits_cons (acc : ℤ) (c : Char) (cs : List Char) :
    pushDigits acc (c :: cs) = pushDigits (acc * 10 + charVal c) cs := rfl

/-- The digit accumulation splits over list concatenation. -/
theorem pushDigits_append (acc : ℤ) (ds es : List Char) :
    pushDigits acc (ds ++ es) = pushDigits (pushDigits acc ds) es :=
  List.foldl_append _ _ _ _

/-- The accumulator contributes a power-of-ten multiple to the digit value. -/
theorem pushDigits_decomp (es : List Char) :
    ∀ acc : ℤ, pushDigits acc es = acc * 10 ^ es.length + pushDigits 0 es := by
  induction es with
  | nil => intro acc; simp [pushDigits]
  | cons c es ih =>
    intro acc
    rw [pushDigits_cons, pushDigits_cons, ih (acc * 10 + charVal c),
      ih (0 * 10 + charVal c)]
    simp only [List.length_cons, pow_succ]
    ring

/-- The loop after the decimal point: on an all-digit suffix it accumulates
every digit into the numerator, multiplies the denominator by ten per digit,
and tracks whether all digits were zero. -/
theorem fromStrLoop_after_point (es : List Char) :
    ∀ (oz : Bool) (num den : ℤ), es.all Char.isDigit = true →
      fromStrLoop es true oz num den =
        .ok (true, oz && zerosOnly es, pushDigits num es, den * 10 ^ es.length) := by
  induction es with
  | nil => intro oz num den _; simp [fromStrLoop, zerosOnly, pushDigits]
  | cons c es ih =>
    intro oz num den h
    simp only [List.all_cons, Bool.and_eq_true] at h
    obtain ⟨hc, hes⟩ := h
    rw [fromStrLoop]
    rw [if_neg (by simpa using digit_ne_point hc), if_pos hc]
    show fromStrLoop es true (oz && charVal c == 0) (num * 10 + charVal c) (den * 10) = _
    rw [ih _ _ _ hes]
    simp only [zerosOnly, List.all_cons, pushDigits_cons, List.length_cons]
    rw [Bool.and_assoc, pow_succ, mul_assoc, mul_comm (10 : ℤ) (10 ^ es.length)]

/-- The loop before the decimal point: an all-digit prefix is accumulated into
the numerator and the loop continues after the point with the point flag
set. -/
theorem fromStrLoop_to_point (ds : List Char) :
    ∀ (es : List Char) (oz : Bool) (num den : ℤ), ds.all Char.isDigit = true →
      fromStrLoop (ds ++ '.' :: es) false oz num den =
        fromStrLoop es true oz (pushDigits num ds) den := by
  induction ds with
  | nil =>
    intro es oz num den _
    show fromStrLoop ('.' :: es) false oz num den = _
    rw [fromStrLoop, if_pos rfl]
    rfl
  | cons c ds ih =>
    intro es oz num den h
    simp only [List.all_cons, Bool.and_eq_true] at h
    obtain ⟨hc, hds⟩ := h
    show fromStrLoop (c :: (ds ++ '.' :: es)) false oz num den = _
    rw [fromStrLoop]
    rw [if_neg (by simpa using digit_ne_point hc), if_pos hc]
    show fromStrLoop (ds ++ '.' :: es) false oz (num * 10 + charVal c) den = _
    rw [ih _ _ _ _ hds, pushDigits_cons]

/-- The loop on an all-digit text with no decimal point. -/
theorem fromStrLoop_no_point (ds : List Char) :
    ∀ (oz : Bool) (num den : ℤ), ds.all Char.isDigit = true →
      fromStrLoop ds false oz num den = .ok (false, oz, pushDigits num ds, den) := by
  induction ds with
  | nil => intro oz num den _; rfl
  | cons c ds ih =>
    intro oz num den h
    simp only [List.all_cons, Bool.and_eq_true] at h
    obtain ⟨hc, hds⟩ := h
    rw [fromStrLoop]
    rw [if_neg (by simpa using digit_ne_point hc), if_pos hc]
    show fromStrLoop ds false oz (num * 10 + charVal c) den = _
    rw [ih _ _ _ hds, pushDigits_cons]

/-- The loop fails whenever some character is neither a digit nor a decimal
point. -/
theorem fromStrLoop_bad_char (cs : List Char) :
    ∀ (fp oz : Bool) (num den : ℤ),
      (cs.any fun c => !(c.isDigit || c == '.')) = true →
      ∃ e, fromStrLoop cs fp oz num den = .error e := by
  induction cs with
  | nil => intro fp oz num den h; simp [List.any_nil] at h
  | cons c cs ih =>
    intro fp oz num den h
    simp only [List.any_cons, Bool.or_eq_true] at h
    rw [fromStrLoop]
    by_cases hpoint : c = '.'
    · subst hpoint
      rw [if_pos rfl]
      have htail : (cs.any fun c => !(c.isDigit || c == '.')) = true := by
        rcases h with h | h
        · simp at h
        · exact h
      cases fp with
      | true => exact ⟨_, rfl⟩
      | false =>
        rw [if_neg (by simp)]
        exact ih _ _ _ _ htail
    · rw [if_neg hpoint]
      by_cases hdig : c.isDigit
      · rw [if_pos hdig]
        have htail : (cs.any fun c => !(c.isDigit || c == '.')) = true := by
          rcases h with h | h
          · exfalso
            simp [hdig, hpoint] at h
          · exact h
        cases fp with
        | true =>
          show ∃ e, fromStrLoop cs true (oz && charVal c == 0)
            (num * 10 + charVal c) (den * 10) = .error e
          exact ih _ _ _ _ htail
        | false =>
          show ∃ e, fromStrLoop cs false oz (num * 10 + charVal c) den = .error e
          exact ih _ _ _ _ htail
      · rw [if_neg hdig]
        exact ⟨_, rfl⟩

/-- The loop fails whenever the characters contain more decimal points than
the point flag still allows (two from the start). -/
theorem fromStrLoop_two_points (cs : List Char) :
    ∀ (fp oz : Bool) (num den : ℤ),
      (if fp then 1 else 2) ≤ (cs.filter (fun c => c == '.')).length →
      ∃ e, fromStrLoop cs fp oz num den = .error e := by
  induction cs with
  | nil =>
    intro fp oz num den h
    simp only [List.filter_nil, List.length_nil] at h
    cases fp <;> simp at h
  | cons c cs ih =>
    intro fp oz num den h
    rw [fromStrLoop]
    by_cases hpoint : c = '.'
    · subst hpoint
      rw [if_pos rfl]
      cases fp with
      | true => exact ⟨_, rfl⟩
      | false =>
        rw [if_neg (by simp)]
        apply ih
        have h2 : 2 ≤ (cs.filter (fun c => c == '.')).length + 1 := by
          simpa [List.filter_cons] using h
        show 1 ≤ (cs.filter (fun c => c == '.')).length
        omega
    · have hfilter : ((c :: cs).filter (fun c => c == '.')).length
          = (cs.filter (fun c => c == '.')).length := by
        simp [List.filter_cons, hpoint]
      rw [hfilter] at h
      rw [if_neg hpoint]
      by_cases hdig : c.isDigit
      · rw [if_pos hdig]
        cases fp with
        | true =>
          show ∃ e, fromStrLoop cs true (oz && charVal c == 0)
            (num * 10 + charVal c) (den * 10) = .error e
          exact ih _ _ _ _ h
        | false =>
          show ∃ e, fromStrLoop cs false oz (num * 10 + charVal c) den = .error e
          exact ih _ _ _ _ h
      · rw [if_neg hdig]
        exact ⟨_, rfl⟩

/-- Every character consumed by a successful big-integer scan is a sign, an
underscore, ASCII whitespace, or a digit. -/
theorem rugParseLoop_chars (cs : List Char) :
    ∀ (hasSign hasDigits isNeg : Bool) (acc : ℤ) (r : Bool × ℤ),
      rugParseLoop cs hasSign hasDigits isNeg acc = some r →
      ∀ c ∈ cs, c = '+' ∨ c = '-' ∨ c = '_' ∨ rugSpace c = true ∨ c.isDigit = true := by
  induction cs with
  | nil => intro _ _ _ _ _ _ c hc; simp at hc
  | cons d ds ih =>
    intro hasSign hasDigits isNeg acc r h c hc
    rw [rugParseLoop] at h
    rcases List.mem_cons.mp hc with hceq | hcmem
    · subst hceq
      by_cases h1 : c = '+'
      · exact Or.inl h1
      by_cases h2 : c = '-'
      · exact Or.inr (Or.inl h2)
      by_cases h3 : c = '_'
      · exact Or.inr (Or.inr (Or.inl h3))
      by_cases h4 : rugSpace c
      · exact Or.inr (Or.inr (Or.inr (Or.inl h4)))
      by_cases h5 : c.isDigit
      · exact Or.inr (Or.inr (Or.inr (Or.inr h5)))
      rw [if_neg h1, if_neg h2, if_neg h3, if_neg h4, if_neg h5] at h
      exact absurd h (by simp)
    · by_cases h1 : d = '+'
      · rw [if_pos h1] at h
        by_cases h1b : (hasSign || hasDigits) = true
        · rw [if_pos h1b] at h; exact absurd h (by simp)
        · rw [if_neg h1b] at h; exact ih _ _ _ _ _ h c hcmem
      rw [if_neg h1] at h
      by_cases h2 : d = '-'
      · rw [if_pos h2] at h
        by_cases h2b : (hasSign || hasDigits) = true
        · rw [if_pos h2b] at h; exact absurd h (by simp)
        · rw [if_neg h2b] at h; exact ih _ _ _ _ _ h c hcmem
      rw [if_neg h2] at h
      by_cases h3 : d = '_'
      · rw [if_pos h3] at h
        by_cases h3b : hasDigits = true
        · rw [if_pos h3b] at h; exact ih _ _ _ _ _ h c hcmem
        · rw [if_neg h3b] at h; exact absurd h (by simp)
      rw [if_neg h3] at h
      by_cases h4 : rugSpace d = true
      · rw [if_pos h4] at h; exact ih _ _ _ _ _ h c hcmem
      rw [if_neg h4] at h
      by_cases h5 : d.isDigit = true
      · rw [if_pos h5] at h; exact ih _ _ _ _ _ h c hcmem
      · rw [if_neg h5] at h; exact absurd h (by simp)

/-- A character of the text after the optional sign is a character of the
text. -/
theorem mem_toList_of_mem_afterSign {s : String} {c : Char}
    (h : c ∈ afterSign s) : c ∈ s.toList := by
  rcases hl : s.toList with _ | ⟨d, rest⟩
  · simp only [afterSign, hl] at h
    simp at h
  · simp only [afterSign, hl] at h
    by_cases hd : d = '-'
    · rw [if_pos hd] at h
      exact List.mem_cons_of_mem _ h
    · rw [if_neg hd] at h
      exact h

/-- The big-integer parse fails on any text containing a decimal point: the
decimal point is not a sign, not an underscore, not whitespace and not a
digit. -/
theorem rug_none_of_point_mem {s : String} (h : '.' ∈ s.toList) :
    rugIntegerParse s = none := by
  rcases hr : rugParseLoop s.toList false false false 0 with _ | r
  · simp only [rugIntegerParse, hr]
    rfl
  · have hchars := rugParseLoop_chars _ _ _ _ _ _ hr '.' h
    rcases hchars with h1 | h1 | h1 | h1 | h1 <;> exact absurd h1 (by decide)

/-- The value of an all-digit list is nonnegative and below the corresponding
power of ten. -/
theorem pushDigits_bounds (es : List Char) (h : es.all Char.isDigit = true) :
    0 ≤ pushDigits 0 es ∧ pushDigits 0 es < 10 ^ es.length := by
  induction es with
  | nil => simp [pushDigits]
  | cons c es ih =>
    simp only [List.all_cons, Bool.and_eq_true] at h
    obtain ⟨hc, hes⟩ := h
    obtain ⟨ih1, ih2⟩ := ih hes
    obtain ⟨hc0, hc9⟩ := charVal_bounds hc
    have hpow : (0 : ℤ) < 10 ^ es.length := by positivity
    constructor
    · rw [pushDigits_cons, pushDigits_decomp]
      nlinarith
    · rw [pushDigits_cons, pushDigits_decomp, List.length_cons, pow_succ]
      nlinarith

/-- The value of an all-zero digit list is the accumulator scaled by the
corresponding power of ten. -/
theorem pushDigits_of_zerosOnly (es : List Char) :
    ∀ acc : ℤ, zerosOnly es = true → pushDigits acc es = acc * 10 ^ es.length := by
  induction es with
  | nil => intro acc _; simp [pushDigits]
  | cons c es ih =>
    intro acc h
    simp only [zerosOnly, List.all_cons, Bool.and_eq_true, beq_iff_eq] at h
    obtain ⟨hc, hes⟩ := h
    rw [pushDigits_cons, hc, ih _ (by simpa [zerosOnly] using hes)]
    simp only [List.length_cons, pow_succ]
    ring

/-- A digit list with some nonzero digit has positive value. -/
theorem pushDigits_pos (es : List Char) (hd : es.all Char.isDigit = true)
    (hz : zerosOnly es = false) : 0 < pushDigits 0 es := by
  induction es with
  | nil => simp [zerosOnly] at hz
  | cons c es ih =>
    simp only [List.all_cons, Bool.and_eq_true] at hd
    obtain ⟨hc, hes⟩ := hd
    simp only [zerosOnly, List.all_cons, Bool.and_eq_true, beq_iff_eq,
      Bool.and_eq_false_iff] at hz
    rw [pushDigits_cons, pushDigits_decomp]
    have hbounds := pushDigits_bounds es hes
    have hpow : (0 : ℤ) < 10 ^ es.length := by positivity
    obtain ⟨hc0, hc9⟩ := charVal_bounds hc
    rcases hz with hz | hz
    · have h1c : 1 ≤ charVal c := by
        rcases lt_or_eq_of_le hc0 with h1 | h1
        · omega
        · exact absurd h1.symm (by simpa using hz)
      nlinarith
    · have hih := ih hes (by simpa [zerosOnly] using hz)
      nlinarith

/-- Powers of ten are positive. -/
theorem pow_ten_pos (k : ℕ) : (0 : ℤ) < 10 ^ k := by positivity

/-- Parsing fails on a text with two or more decimal points. -/
theorem fromStr_two_points (s : String)
    (h : 2 ≤ (s.toList.filter (fun c => c == '.')).length) :
    parseOk (fromStr s) = false := by
  have hafter : 2 ≤ ((afterSign s).filter (fun c => c == '.')).length := by
    rcases hl : s.toList with _ | ⟨c, rest⟩
    · rw [hl] at h; simp at h
    · rw [hl] at h
      simp only [afterSign, hl]
      by_cases hc : c = '-'
      · rw [if_pos hc]
        subst hc
        simpa [List.filter_cons] using h
      · rw [if_neg hc]
        exact h
  have hmem : '.' ∈ s.toList := by
    have h1 : (s.toList.filter (fun c => c == '.')) ≠ [] := by
      intro hnil
      rw [hnil] at h
      simp at h
    obtain ⟨x, hx⟩ := List.exists_mem_of_ne_nil _ h1
    have h2 := List.mem_filter.mp hx
    have hxeq : x = '.' := by simpa using h2.2
    exact hxeq ▸ h2.1
  have hrug := rug_none_of_point_mem hmem
  obtain ⟨e, he⟩ := fromStrLoop_two_points (afterSign s) false true 0 (signOf s) hafter
  simp [fromStr, hrug, he, parseOk]

/-- Parsing fails on a text that the big-integer parser rejects and that
contains a character that is neither a digit nor a decimal point, outside the
optional leading minus sign consumed by the fallback loop. -/
theorem fromStr_bad_char (s : String) (hrug : rugIntegerParse s = none)
    (h : shapeOk s = false) :
    parseOk (fromStr s) = false := by
  unfold shapeOk at h
  have hany : ((afterSign s).any fun c => !(c.isDigit || c == '.')) = true := by
    rw [List.any_eq_true]
    have h2 : ¬ ((afterSign s).all fun c => c.isDigit || c == '.') = true := by simp [h]
    rw [List.all_eq_true] at h2
    push_neg at h2
    obtain ⟨x, hx, hpx⟩ := h2
    exact ⟨x, hx, by simp [hpx]⟩
  obtain ⟨e, he⟩ := fromStrLoop_bad_char (afterSign s) false true 0 (signOf s) hany
  simp [fromStr, hrug, he, parseOk]

/-- Classification of a signed digit text with one decimal point, stated over
an abstract unit sign: only zero digits after the point give IntegerFromFloat
of the signed integer part, a nonzero digit after the point gives a Rational
whose reduced denominator is not 1. -/
theorem fromStr_fraction_core (s : String) (sign : ℤ) (ds es : List Char)
    (hsign : sign = 1 ∨ sign = -1)
    (hAfter : afterSign s = ds ++ '.' :: es)
    (hSign : signOf s = sign)
    (hds : ds.all Char.isDigit = true) (hes : es.all Char.isDigit = true) :
    (zerosOnly es = true →
      fromStr s = .ok (.IntegerFromFloat (sign * pushDigits 0 ds))) ∧
    (zerosOnly es = false →
      fromStr s = .ok (.Rational (Rat.divInt (pushDigits 0 (ds ++ es))
        (sign * 10 ^ es.length))) ∧
      (Rat.divInt (pushDigits 0 (ds ++ es)) (sign * 10 ^ es.length)).den ≠ 1) := by
  have hpow := pow_ten_pos es.length
  have hmem : '.' ∈ s.toList := by
    apply mem_toList_of_mem_afterSign
    rw [hAfter]
    exact List.mem_append_right _ (List.mem_cons_self _ _)
  have hrug := rug_none_of_point_mem hmem
  have hloop : fromStrLoop (afterSign s) false true 0 (signOf s) =
      .ok (true, zerosOnly es, pushDigits 0 (ds ++ es), sign * 10 ^ es.length) := by
    rw [hAfter, hSign, fromStrLoop_to_point ds es true 0 _ hds,
      fromStrLoop_after_point es _ _ _ hes]
    rw [Bool.true_and, ← pushDigits_append]
  constructor
  · intro hz
    by_cases hden : sign * 10 ^ es.length = 1
    · have hsign1 : sign = 1 := by rcases hsign with h | h <;> subst h <;> omega
      subst hsign1
      have hpowone : (10 : ℤ) ^ es.length = 1 := by omega
      have hNum : pushDigits 0 (ds ++ es) = pushDigits 0 ds := by
        rw [pushDigits_append, pushDigits_of_zerosOnly es _ hz, hpowone]
        ring
      simp only [fromStr, hrug, hloop, hNum, one_mul]
      simp [hpowone]
    · have hNum : pushDigits 0 (ds ++ es) =
          (pushDigits 0 ds) * 10 ^ es.length := by
        rw [pushDigits_append, pushDigits_of_zerosOnly es _ hz]
      simp only [fromStr, hrug, hloop, if_neg hden, if_pos hz, hNum]
      congr 2
      rcases hsign with h1 | h1 <;> subst h1
      · rw [one_mul, Int.mul_tdiv_cancel _ (by omega)]
        ring
      · rw [show ((-1 : ℤ) * 10 ^ es.length) = -(10 ^ es.length) by ring,
          Int.tdiv_neg, Int.mul_tdiv_cancel _ (by omega)]
        ring
  · intro hz
    have hden : sign * 10 ^ es.length ≠ 1 := by
      intro hc
      have hsign1 : sign = 1 := by rcases hsign with h | h <;> subst h <;> omega
      subst hsign1
      have hpowone : (10 : ℤ) ^ es.length = 1 := by omega
      have hlen : es.length = 0 := by
        by_contra hk
        have h10 : (10 : ℤ) ^ 1 ≤ 10 ^ es.length :=
          pow_le_pow_right₀ (by norm_num) (by omega)
        simp only [pow_one] at h10
        omega
      rw [List.length_eq_zero] at hlen
      subst hlen
      simp [zerosOnly] at hz
    refine ⟨?_, ?_⟩
    · simp only [fromStr, hrug, hloop, if_neg hden, hz]
      simp
    · have hD : sign * 10 ^ es.length ≠ 0 := by
        rcases hsign with h1 | h1 <;> subst h1 <;> omega
      rw [Rat.divInt_eq_div]
      intro hdeq
      rw [Rat.den_div_intCast_eq_one_iff _ _ hD] at hdeq
      have hdvd := hdeq
      have hdvd10 : (10 : ℤ) ^ es.length ∣ pushDigits 0 (ds ++ es) := by
        rcases hsign with h1 | h1 <;> subst h1
        · rwa [one_mul] at hdvd
        · rw [show ((-1 : ℤ) * 10 ^ es.length) = -(10 ^ es.length) by ring,
            Int.neg_dvd] at hdvd
          exact hdvd
      obtain ⟨c, hc⟩ := hdvd10
      have hNdecomp : pushDigits 0 (ds ++ es) =
          (pushDigits 0 ds) * 10 ^ es.length + pushDigits 0 es := by
        rw [pushDigits_append, pushDigits_decomp]
      obtain ⟨hv0, hvlt⟩ := pushDigits_bounds es hes
      have hvpos := pushDigits_pos es hes hz
      have hvd : (10 : ℤ) ^ es.length ∣ pushDigits 0 es := by
        refine ⟨c - pushDigits 0 ds, ?_⟩
        rw [hNdecomp] at hc
        linarith [hc]
      have hle := Int.le_of_dvd hvpos hvd
      omega

/-- Classification of a decimal text with one decimal point, stated over the
text shape with an optional leading minus sign. -/
theorem fromStr_fraction (s : String) (neg : Bool) (ds es : List Char)
    (hl : s.toList = (if neg then ['-'] else []) ++ ds ++ '.' :: es)
    (hds : ds.all Char.isDigit = true) (hes : es.all Char.isDigit = true) :
    (zerosOnly es = true →
      fromStr s = .ok (.IntegerFromFloat ((if neg then -1 else 1) * pushDigits 0 ds))) ∧
    (zerosOnly es = false →
      fromStr s = .ok (.Rational (Rat.divInt (pushDigits 0 (ds ++ es))
        ((if neg then -1 else 1) * 10 ^ es.length))) ∧
      (Rat.divInt (pushDigits 0 (ds ++ es))
        ((if neg then -1 else 1) * 10 ^ es.length)).den ≠ 1) := by
  have hAfter : afterSign s = ds ++ '.' :: es := by
    cases neg with
    | true =>
      have hl' : s.toList = '-' :: (ds ++ '.' :: es) := by simpa using hl
      simp only [afterSign, hl']
      simp
    | false =>
      have hl' : s.toList = ds ++ '.' :: es := by simpa using hl
      cases ds with
      | nil =>
        simp only [afterSign, hl', List.nil_append]
        rw [if_neg (by decide)]
      | cons c ds' =>
        have hc : c.isDigit = true := by
          simp only [List.all_cons, Bool.and_eq_true] at hds
          exact hds.1
        simp only [afterSign, hl', List.cons_append]
        rw [if_neg (digit_ne_minus hc)]
  have hSign : signOf s = (if neg then (-1 : ℤ) else 1) := by
    cases neg with
    | true =>
      have hl' : s.toList = '-' :: (ds ++ '.' :: es) := by simpa using hl
      simp only [signOf, hl']
    | false =>
      have hl' : s.toList = ds ++ '.' :: es := by simpa using hl
      cases ds with
      | nil =>
        simp only [signOf, hl', List.nil_append]
        rw [if_neg (by decide)]
        simp
      | cons c ds' =>
        have hc : c.isDigit = true := by
          simp only [List.all_cons, Bool.and_eq_true] at hds
          exact hds.1
        simp only [signOf, hl', List.cons_append]
        rw [if_neg (digit_ne_minus hc)]
        simp
  exact fromStr_fraction_core s _ ds es (by cases neg <;> simp) hAfter hSign hds hes

/-! ## Theorems -/

/-- C1. The claim states that equal values hash identically; the code breaks
it: the PerfectPrecisionNumber values parsed from the literals 1 and 1.0 are
Integer 1 and IntegerFromFloat 1, which compare equal (PartialEq identifies
the two integer-like variants) yet feed different data to the hasher (the
Hash implementation prefixes the discriminant 0 for Integer and 1 for
IntegerFromFloat), and consequently the HashedValue wrappers of the JSON
numbers 1 and 1.0 are equal with distinct hashes. -/
theorem C1_equal_values_hash_differently :
    ppnFromNumber "1" = .Integer 1 ∧
    ppnFromNumber "1.0" = .IntegerFromFloat 1 ∧
    ppnEq (.Integer 1) (.IntegerFromFloat 1) = true ∧
    ppnHashFeed (.Integer 1) ≠ ppnHashFeed (.IntegerFromFloat 1) ∧
    hvEq (.num "1") (.num "1.0") = true ∧
    hvHash (.num "1") ≠ hvHash (.num "1.0") := by
  refine ⟨rfl, rfl, rfl, by decide, rfl, by decide⟩

/-- C2. The claim states that is_unique returns false exactly when two
distinct elements are structurally equal, and in particular detects the
duplicate in the array 1, 1.0; the code misses it: the two elements are
structurally equal under the HashedValue equality, but their hashes differ
(the number-hash inconsistency of C1), so the hash-set insertion never
compares them and is_unique returns true. -/
theorem C2_unique_items_misses_equal_numbers :
    is_unique (.cons (.num "1") (.cons (.num "1.0") .nil)) = true ∧
    hvEq (.num "1") (.num "1.0") = true := by
  refine ⟨by decide, rfl⟩

/-- C3. The claim states that every compiled leaf validator accepts every
instance whose kind its keyword does not constrain; the uniqueItems validator
does not: its boolean entry point returns false for every non-array instance,
for example the string instance foo. -/
theorem C3_unique_items_rejects_inapplicable_kind :
    uniqueItems_is_valid (.str "foo") = false := rfl

/-- C4. The claim states that the diagnostic entry point yields an empty
violation sequence exactly when the boolean entry point returns true; the
uniqueItems validator violates the equivalence on every non-array instance,
for example null: validate yields no violations while is_valid returns
false. -/
theorem C4_unique_items_empty_diagnostics_but_invalid :
    uniqueItems_validate .null = [] ∧ uniqueItems_is_valid .null = false :=
  ⟨rfl, rfl⟩

/-- C5. The divisibility test is correct in all four arms: for well-formed
exact numbers, is_multiple_of holds exactly when the represented value of the
left operand is an integer multiple of the represented value of the right
operand; and concretely the exact-engine multipleOf validator with divisor
0.01 accepts the instance 19.99 and rejects 19.999. -/
theorem C5_is_multiple_of_correct :
    (∀ a b : PerfectPrecisionNumber, ppnWf a → ppnWf b →
      (is_multiple_of a b = true ↔ ∃ k : ℤ, ppnToRat a = (k : ℚ) * ppnToRat b)) ∧
    ppnFromNumber "0.01" = .Rational (Rat.divInt 1 100) ∧
    multipleOf_is_valid (ppnFromNumber "0.01") (.num "19.99") = true ∧
    multipleOf_is_valid (ppnFromNumber "0.01") (.num "19.999") = false := by
  refine ⟨?_, by decide, by decide, by decide⟩
  intro a b ha hb
  cases a with
  | Integer x =>
    cases b with
    | Integer y =>
      exact (is_divisible_iff x y).trans (int_dvd_iff_int_multiple x y)
    | IntegerFromFloat y =>
      exact (is_divisible_iff x y).trans (int_dvd_iff_int_multiple x y)
    | Rational q =>
      exact (is_divisible_iff x q.num).trans (num_dvd_iff_rat_multiple x q)
  | IntegerFromFloat x =>
    cases b with
    | Integer y =>
      exact (is_divisible_iff x y).trans (int_dvd_iff_int_multiple x y)
    | IntegerFromFloat y =>
      exact (is_divisible_iff x y).trans (int_dvd_iff_int_multiple x y)
    | Rational q =>
      exact (is_divisible_iff x q.num).trans (num_dvd_iff_rat_multiple x q)
  | Rational p =>
    cases b with
    | Integer y =>
      simp only [is_multiple_of, Bool.false_eq_true, false_iff]
      exact rat_not_int_multiple p ha y
    | IntegerFromFloat y =>
      simp only [is_multiple_of, Bool.false_eq_true, false_iff]
      exact rat_not_int_multiple p ha y
    | Rational q =>
      simp only [is_multiple_of, ppnToRat, beq_iff_eq]
      exact ratDivExact_den_one_iff p q hb

/-- C5 witness: the characterisation applied to the integers 6 and 2. -/
theorem C5_is_multiple_of_correct_witness :
    is_multiple_of (.Integer 6) (.Integer 2) = true ↔
      ∃ k : ℤ, ppnToRat (.Integer 6) = (k : ℚ) * ppnToRat (.Integer 2) :=
  C5_is_multiple_of_correct.1 (.Integer 6) (.Integer 2) trivial trivial

/-- C6. The minimum validator compares a numeric instance to its limit with
the exact arbitrary-precision comparison of the represented values, so no
rounding is involved at any magnitude; concretely, for limit 5 the instance 5
is valid, the instance 4.999999999999999 is invalid, the string instance 5 is
valid, and beyond the 53-bit float range the limit 2 to the 54 rejects its
predecessor. -/
theorem C6_minimum_exact_comparison :
    (∀ (limit n : PerfectPrecisionNumber) (s : String), fromStr s = .ok n →
        minimum_is_valid limit (.num s) = decide (ppnToRat limit ≤ ppnToRat n)) ∧
    minimum_is_valid (ppnFromNumber "5") (.num "5") = true ∧
    minimum_is_valid (ppnFromNumber "5") (.num "4.999999999999999") = false ∧
    minimum_is_valid (ppnFromNumber "18014398509481984")
      (.num "18014398509481983") = false ∧
    minimum_is_valid (ppnFromNumber "5") (.str "5") = true := by
  refine ⟨?_, by decide, by decide, by decide, rfl⟩
  intro limit n s h
  simp only [minimum_is_valid, ppnFromNumber, h, ppnGe_eq_decide]

/-- C6 witness: the exact-comparison equation applied to limit 5 and the
numeric instance 7. -/
theorem C6_minimum_exact_comparison_witness :
    minimum_is_valid (.Integer 5) (.num "7") =
      decide (ppnToRat (.Integer 5) ≤ ppnToRat (.Integer 7)) :=
  C6_minimum_exact_comparison.1 (.Integer 5) (.Integer 7) "7" rfl

/-- C7 counterexample. Concrete inputs refuting the claim as stated. The lone
minus sign has no decimal point, is rejected by the big-integer parser, yet
parses successfully to IntegerFromFloat 0 instead of an Integer. The texts
holding a space and an underscore each contain a non-digit character outside
the optional leading sign and the decimal point, yet parse successfully,
because the big-integer parser ignores ASCII whitespace and post-digit
underscores — so the unconditional failure clause is also false. The
plus-signed fractional text, a decimal text under the optional-leading-sign
reading, fails instead of classifying, because the fallback loop consumes
only a minus sign. -/
theorem C7_original_claim_counterexamples :
    (fromStr "-" = .ok (.IntegerFromFloat 0) ∧
      ¬ '.' ∈ "-".toList ∧ rugIntegerParse "-" = none) ∧
    fromStr " 5" = .ok (.Integer 5) ∧
    fromStr "1_2" = .ok (.Integer 12) ∧
    fromStr "+5" = .ok (.Integer 5) ∧
    parseOk (fromStr "+5.5") = false := by
  exact ⟨⟨rfl, by decide, rfl⟩, rfl, rfl, rfl, rfl⟩

/-- C7 amended. Parsing decimal text classifies as the claim states, amended
where the counterexamples force it: (1) every text accepted by the
big-integer parser — whose documented grammar ignores ASCII whitespace,
allows one leading plus or minus sign, and ignores underscores after the
first digit — yields the Integer variant holding exactly the parsed integer;
(2) a text with more than one decimal point always fails; (3) a text the
big-integer parser rejects that contains a character that is not a digit, not
a decimal point and not a leading minus sign fails; (4) an optionally
minus-signed digit text with a single decimal point yields IntegerFromFloat
of the signed integer part when only zero digits follow the point (the
lone-sign text being the degenerate instance of this shape) and otherwise
yields the Rational variant with reduced denominator different from 1. -/
theorem C7_parse_classification_amended :
    (∀ (s : String) (z : ℤ), rugIntegerParse s = some z →
        fromStr s = .ok (.Integer z)) ∧
    (∀ s : String, 2 ≤ (s.toList.filter (fun c => c == '.')).length →
        parseOk (fromStr s) = false) ∧
    (∀ s : String, rugIntegerParse s = none → shapeOk s = false →
        parseOk (fromStr s) = false) ∧
    (∀ (s : String) (neg : Bool) (ds es : List Char),
        s.toList = (if neg then ['-'] else []) ++ ds ++ '.' :: es →
        ds.all Char.isDigit = true → es.all Char.isDigit = true →
        (zerosOnly es = true →
          fromStr s = .ok (.IntegerFromFloat
            ((if neg then -1 else 1) * pushDigits 0 ds))) ∧
        (zerosOnly es = false →
          fromStr s = .ok (.Rational (Rat.divInt (pushDigits 0 (ds ++ es))
            ((if neg then -1 else 1) * 10 ^ es.length))) ∧
          (Rat.divInt (pushDigits 0 (ds ++ es))
            ((if neg then -1 else 1) * 10 ^ es.length)).den ≠ 1)) := by
  refine ⟨?_, fromStr_two_points, fromStr_bad_char, fromStr_fraction⟩
  intro s z h
  simp [fromStr, h]

/-- C7 witness: the classification applied to the concrete texts 12 (integer
path), 1..2 (two points), 1a (rejected by the big-integer parser, invalid
character) and 19.99 (rational with denominator 100). -/
theorem C7_parse_classification_amended_witness :
    fromStr "12" = .ok (.Integer 12) ∧
    parseOk (fromStr "1..2") = false ∧
    parseOk (fromStr "1a") = false ∧
    fromStr "19.99" = .ok (.Rational (Rat.divInt 1999 100)) ∧
    (Rat.divInt 1999 100).den ≠ 1 := by
  have h4 := (C7_parse_classification_amended.2.2.2 "19.99" false ['1', '9']
    ['9', '9'] rfl rfl rfl).2 (by decide)
  exact ⟨C7_parse_classification_amended.1 "12" 12 rfl,
    C7_parse_classification_amended.2.1 "1..2" (by decide),
    C7_parse_classification_amended.2.2.1 "1a" rfl rfl, h4.1, h4.2⟩

/-- C8 counterexample. The claim places relative-json-pointer among the
formats supported for every draft, but its gate requires draft at least 7:
at Draft6 it is not supported. -/
theorem C8_relative_json_pointer_gated_at_draft6 :
    RelativeJSONPointerValidator.supported_for_draft .draft6 = false := rfl

/-- C8 amended. The draft-gating table of the built-in formats, as the source
defines it: idn-hostname, iri, iri-reference and also relative-json-pointer
require draft at least 7; json-pointer, uri-reference and uri-template require
draft at least 6; the remaining built-ins (date, date-time, email, hostname,
idn-email, ipv4, ipv6, regex, time, uri) are supported for every draft. -/
theorem C8_draft_gating_table :
    (IDNHostnameValidator.supported_for_draft .draft6 = false ∧
      IDNHostnameValidator.supported_for_draft .draft7 = true) ∧
    (IRIValidator.supported_for_draft .draft6 = false ∧
      IRIValidator.supported_for_draft .draft7 = true) ∧
    (IRIReferenceValidator.supported_for_draft .draft6 = false ∧
      IRIReferenceValidator.supported_for_draft .draft7 = true) ∧
    (RelativeJSONPointerValidator.supported_for_draft .draft6 = false ∧
      RelativeJSONPointerValidator.supported_for_draft .draft7 = true) ∧
    (JSONPointerValidator.supported_for_draft .draft6 = true ∧
      JSONPointerValidator.supported_for_draft .draft7 = true) ∧
    (URIReferenceValidator.supported_for_draft .draft6 = true ∧
      URIReferenceValidator.supported_for_draft .draft7 = true) ∧
    (URITemplateValidator.supported_for_draft .draft6 = true ∧
      URITemplateValidator.supported_for_draft .draft7 = true) ∧
    ([DateValidator, DateTimeValidator, EmailValidator, HostnameValidator,
      IDNEmailValidator, IpV4Validator, IpV6Validator, RegexValidator,
      TimeValidator, URIValidator].all
        (fun f => f.supported_for_draft .draft6 && f.supported_for_draft .draft7)
      = true) := by
  decide

/-- C9. Compiling the format keyword with a string schema value never yields
a compilation error; a name absent from the built-in table, or present but
not supported for the active draft, compiles to no validator at all. -/
theorem C9_format_string_value_never_errors :
    (∀ (formatName : String) (d : Draft),
        formatHandlers.find? (fun f => f.formatName == formatName) = none →
        format_compile (.str formatName) d = none) ∧
    (∀ (formatName : String) (d : Draft) (f : BuiltinFormat),
        formatHandlers.find? (fun f => f.formatName == formatName) = some f →
        f.supported_for_draft d = false →
        format_compile (.str formatName) d = none) ∧
    (∀ (formatName : String) (d : Draft) (e : CompilationError),
        format_compile (.str formatName) d ≠ some (.error e)) := by
  refine ⟨?_, ?_, ?_⟩
  · intro formatName d h
    simp [format_compile, h]
  · intro formatName d f h hsup
    simp [format_compile, h, builder_compile, hsup]
  · intro formatName d e
    simp only [format_compile]
    cases hfind : formatHandlers.find? (fun f => f.formatName == formatName) with
    | none => simp
    | some f =>
      simp only [builder_compile]
      split
      · simp
      · simp

/-- C9 witness: the unknown name no-such-format compiles to no validator, the
recognized name iri is dropped below Draft7, and neither is a compilation
error. -/
theorem C9_format_string_value_never_errors_witness :
    format_compile (.str "no-such-format") .draft7 = none ∧
    format_compile (.str "iri") .draft6 = none ∧
    format_compile (.str "iri") .draft6 ≠ some (.error .SchemaError) := by
  refine ⟨?_, ?_, ?_⟩
  · exact C9_format_string_value_never_errors.1 "no-such-format" .draft7 rfl
  · exact C9_format_string_value_never_errors.2.1 "iri" .draft6 IRIValidator rfl rfl
  · exact C9_format_string_value_never_errors.2.2 "iri" .draft6 .SchemaError

/-- C10. Compiling the format keyword with a non-string schema value always
fails with SchemaError. -/
theorem C10_non_string_format_value_is_schema_error :
    ∀ (schema : Json) (d : Draft), schema.isString = false →
      format_compile schema d = some (.error .SchemaError) := by
  intro schema d h
  cases schema <;> simp_all [Json.isString, format_compile]

/-- C10 witness: the format keyword valued by the number 3 is a SchemaError
for Draft7. -/
theorem C10_non_string_format_value_is_schema_error_witness :
    format_compile (.num "3") .draft7 = some (.error .SchemaError) :=
  C10_non_string_format_value_is_schema_error (.num "3") .draft7 rfl

end JsonSchemaCore
